import Mathlib

set_option maxHeartbeats 1000000

namespace Characterize

/-- An RGB pixel. The Rust code stores channels as u8; here channels are
natural numbers, the u8 range travels as a hypothesis where it matters, and
the final u8 casts of the Rust code are modelled by an explicit mod 256. -/
structure Rgb where
  r : ℕ
  g : ℕ
  b : ℕ
deriving DecidableEq

/-- Model of get_average_color (src/src/main.rs, lines 194 to 214): sum each
channel over the pixel list with unbounded accumulators (the Rust usize
accumulators cannot overflow for representable image sizes), divide the sums
by the pixel count with truncating natural division, and cast each quotient
to u8, modelled as mod 256. When the pixel list is empty the Rust code
divides by zero and the process aborts with a panic; that abnormal outcome
is modelled as none. -/
def get_average_color (ps : List Rgb) : Option Rgb :=
  if ps.length = 0 then none
  else
    some ⟨(ps.map Rgb.r).sum / ps.length % 256,
          (ps.map Rgb.g).sum / ps.length % 256,
          (ps.map Rgb.b).sum / ps.length % 256⟩

/-- Clipped width of a requested region, following image's crop_imm: the
origin is clamped to the buffer width and the requested width is clamped to
the remaining span. -/
def clipW (W x w : ℕ) : ℕ := min w (W - min x W)

/-- Clipped height of a requested region, following image's crop_imm. -/
def clipH (H y h : ℕ) : ℕ := min h (H - min y H)

/-- The pixels of the clipped region (x, y, w, h) of a W by H buffer, in the
row-major order in which the pixels iterator of the cropped image yields
them. The buffer is a total function so out-of-range reads cannot occur by
construction; only in-bounds offsets are enumerated. -/
def regionPixels (img : ℕ → ℕ → Rgb) (W H x y w h : ℕ) : List Rgb :=
  (List.range (clipH H y h)).flatMap fun j =>
    (List.range (clipW W x w)).map fun i => img (x + i) (y + j)

/-- Value of one hexadecimal digit character, upper or lower case. -/
def hexDigitVal (c : Char) : Option ℕ :=
  if '0' ≤ c ∧ c ≤ '9' then some (c.toNat - '0'.toNat)
  else if 'a' ≤ c ∧ c ≤ 'f' then some (c.toNat - 'a'.toNat + 10)
  else if 'A' ≤ c ∧ c ≤ 'F' then some (c.toNat - 'A'.toNat + 10)
  else none

/-- Accumulate hexadecimal digits left to right with the checked arithmetic
of u8::from_str_radix: any non-digit or any accumulated value above 255 is
an error (none). The empty digit list yields 0 here; emptiness is rejected
by the caller. -/
def parseHexDigits (l : List Char) : Option ℕ :=
  l.foldl (fun acc c =>
    match acc, hexDigitVal c with
    | some a, some d => if a * 16 + d ≤ 255 then some (a * 16 + d) else none
    | _, _ => none) (some 0)

/-- Model of u8::from_str_radix(s, 16): an optional sign, then at least one
hexadecimal digit, with checked accumulation; overflow past u8 is an error.
A minus sign on the unsigned type succeeds only for the value zero. -/
def from_str_radix_u8 (s : List Char) : Option ℕ :=
  match s with
  | [] => none
  | '+' :: rest => if rest.isEmpty then none else parseHexDigits rest
  | '-' :: rest =>
    if rest.isEmpty then none
    else if rest.all (fun c => c == '0') then some 0 else none
  | l => parseHexDigits l

/-- Model of get_rgb_from_hex (src/src/main.rs, lines 216 to 231): remove
every occurrence of the hash character anywhere in the string, require at
least 6 remaining characters, split off two characters for red and two for
green, and hand the entire remaining tail to the blue parse, because
split_at(2) on the rest returns the whole remainder as its second half.
Strings are modelled as lists of characters. Any parse error is none,
surfaced by the caller as the InvalidColor message. -/
def get_rgb_from_hex (s : List Char) : Option Rgb :=
  let hex := s.filter (fun c => c != '#')
  if hex.length < 6 then none
  else
    match from_str_radix_u8 (hex.take 2), from_str_radix_u8 ((hex.drop 2).take 2),
        from_str_radix_u8 (hex.drop 4) with
    | some r, some g, some b => some ⟨r, g, b⟩
    | _, _, _ => none

/-- The hex parsing behaviour exactly as claim C4 words it: strip one
leading hash if present, require at least 6 remaining characters, parse the
first 6 as three 2-digit pairs and ignore everything beyond the 6th
character. Written from the claim, to be compared with the source model. -/
def get_rgb_from_hex_claim (s : List Char) : Option Rgb :=
  let t := match s with
    | '#' :: rest => rest
    | _ => s
  if t.length < 6 then none
  else
    match from_str_radix_u8 (t.take 2), from_str_radix_u8 ((t.drop 2).take 2),
        from_str_radix_u8 ((t.drop 4).take 2) with
    | some r, some g, some b => some ⟨r, g, b⟩
    | _, _, _ => none

/-- The amended hex parsing contract: every hash anywhere is removed, at
least 6 characters must remain, the first two are red, the next two green,
and the whole remainder is parsed as the blue byte, so trailing characters
participate in the blue parse instead of being ignored. Written from the
amended wording, to be compared with the source model. -/
def get_rgb_from_hex_amended (s : List Char) : Option Rgb :=
  let t := s.filter (fun c => c != '#')
  if t.length < 6 then none
  else
    match from_str_radix_u8 (t.take 2), from_str_radix_u8 ((t.drop 2).take 2),
        from_str_radix_u8 (t.drop 4) with
    | some r, some g, some b => some ⟨r, g, b⟩
    | _, _, _ => none


/-- Model of String::replace with a character predicate pattern and the
empty replacement string: every character matched by the predicate is
removed, all other characters keep their order. -/
def rustReplaceEmpty (p : Char → Bool) (t : List Char) : List Char :=
  t.filter fun c => ! p c

/-- Model of sanatize_text (src/src/main.rs, lines 233 to 235): remove every
character that is not alphabetic. Rust's char::is_alphabetic, the Unicode
Alphabetic property, is an external capability of the standard library and
is taken as a parameter; every claim either quantifies over it or pins it on
ASCII characters, where it agrees with Char.isAlpha. -/
def sanatize_text (isAlphabetic : Char → Bool) (t : List Char) : List Char :=
  rustReplaceEmpty (fun c => ! isAlphabetic c) t

/-- The result of the n-th call of next() on chars().cycle() over the given
character list: none forever when the list is empty, otherwise the character
at the call index modulo the length. -/
def cycleNext (l : List Char) (n : ℕ) : Option Char :=
  if l.isEmpty then none else l.get? (n % l.length)

/-- Model of SliceRandom::choose: none on an empty slice, otherwise some
element of the slice; the random number generator is abstracted as a draw r,
reduced modulo the length. -/
def chooseModel (l : List Char) (r : ℕ) : Option Char :=
  if l.isEmpty then none else l.get? (r % l.length)

/-- Model of the glyph selection in the composition loop (src/src/main.rs,
lines 110 to 119): take the next character of the cyclic text stream; when
the text is empty the stream is exhausted at every call, and then either a
random character of the active character vector is chosen (when the literal
character argument is empty) or the first character of the literal argument
is used. none models the expect panic applied to the result of choose when
the character vector is empty. -/
def nextGlyph (text : List Char) (n : ℕ) (character : List Char)
    (characters : List Char) (r : ℕ) : Option Char :=
  match cycleNext text n with
  | some c => some c
  | none => if character.isEmpty then chooseModel characters r else character.head?

/-- The Unicode White_Space code points, as used by str::trim. -/
def rustIsWhitespace (c : Char) : Bool :=
  (9 ≤ c.toNat && c.toNat ≤ 13) || c.toNat == 32 || c.toNat == 133 ||
    c.toNat == 160 || c.toNat == 0x1680 ||
    (0x2000 ≤ c.toNat && c.toNat ≤ 0x200A) || c.toNat == 0x2028 ||
    c.toNat == 0x2029 || c.toNat == 0x202F || c.toNat == 0x205F ||
    c.toNat == 0x3000

/-- Model of str::trim: drop whitespace from both ends. -/
def rustTrim (l : List Char) : List Char :=
  ((l.dropWhile rustIsWhitespace).reverse.dropWhile rustIsWhitespace).reverse

/-- The charset names of the enumerated domain (src/src/main.rs, lines 237
to 253). -/
inductive Charset where
  | Latin
  | Cyrillic
  | Runic
  | Hebrew
  | Hiragana
  | Katakana
  | Hangul
  | CkjUnified
  | Greek
  | Emoticons
  | Decimal
  | Binary
  | Hexadecimal
  | Braille
  | PlayingCards
deriving DecidableEq

/-- The characters of the inclusive code point range from lo to hi, in
order. None of the ranges used by the program crosses the surrogate gap, so
a plain enumeration matches the Rust char range iterator. -/
def rangeChars (lo hi : ℕ) : List Char :=
  (List.range (hi + 1 - lo)).map fun i => Char.ofNat (lo + i)

/-- Model of get_characters (src/src/main.rs, lines 281 to 325), with
char::is_alphabetic taken as a parameter. Each arm collects an inclusive
code point range, filtered where the source filters. -/
def get_characters (isAlphabetic : Char → Bool) : Charset → List Char
  | .Latin => (rangeChars 0x0041 0x007A).filter isAlphabetic
  | .Cyrillic => (rangeChars 0x0400 0x04FF).filter isAlphabetic
  | .Runic => (rangeChars 0x16A0 0x16FF).filter isAlphabetic
  | .Hebrew => (rangeChars 0x0590 0x05FF).filter isAlphabetic
  | .Hiragana => (rangeChars 0x3040 0x309F).filter isAlphabetic
  | .Hangul => (rangeChars 0x1100 0x11FF).filter isAlphabetic
  | .Katakana => (rangeChars 0x30A0 0x30FF).filter isAlphabetic
  | .CkjUnified => (rangeChars 0x4E00 0x9FFF).filter isAlphabetic
  | .Emoticons => rangeChars 0x1F600 0x1F64F
  | .Decimal => rangeChars 0x30 0x39
  | .Hexadecimal => rangeChars 0x30 0x39 ++ rangeChars 0x41 0x46
  | .Binary => ['0', '1']
  | .Braille => rangeChars 0x2800 0x28FF
  | .Greek => (rangeChars 0x0370 0x03E1).filter isAlphabetic
  | .PlayingCards =>
    (rangeChars 0x1F0A0 0x1F0DF).filter fun c =>
      c != Char.ofNat 0x1F0AF && c != Char.ofNat 0x1F0B0 &&
        c != Char.ofNat 0x1F0C0 && c != Char.ofNat 0x1F0D0

/-- The named charset table exactly as the specification writes it: each
name maps to its contiguous Unicode range with its stated filter, the
playing cards range excluding the four reserved gap code points. Written
from the specification table, to be compared with the source model. -/
def specCharacters (isAlphabetic : Char → Bool) : Charset → List Char
  | .Latin => (rangeChars 0x0041 0x007A).filter isAlphabetic
  | .Cyrillic => (rangeChars 0x0400 0x04FF).filter isAlphabetic
  | .Runic => (rangeChars 0x16A0 0x16FF).filter isAlphabetic
  | .Hebrew => (rangeChars 0x0590 0x05FF).filter isAlphabetic
  | .Hiragana => (rangeChars 0x3040 0x309F).filter isAlphabetic
  | .Katakana => (rangeChars 0x30A0 0x30FF).filter isAlphabetic
  | .Hangul => (rangeChars 0x1100 0x11FF).filter isAlphabetic
  | .CkjUnified => (rangeChars 0x4E00 0x9FFF).filter isAlphabetic
  | .Greek => (rangeChars 0x0370 0x03E1).filter isAlphabetic
  | .Emoticons => rangeChars 0x1F600 0x1F64F
  | .Decimal => rangeChars 0x30 0x39
  | .Hexadecimal => rangeChars 0x30 0x39 ++ rangeChars 0x41 0x46
  | .Binary => ['0', '1']
  | .Braille => rangeChars 0x2800 0x28FF
  | .PlayingCards =>
    (rangeChars 0x1F0A0 0x1F0DF).filter fun c =>
      ! [Char.ofNat 0x1F0AF, Char.ofNat 0x1F0B0,
          Char.ofNat 0x1F0C0, Char.ofNat 0x1F0D0].contains c

/-- Model of the character vector resolution in main (src/src/main.rs,
lines 29 to 47): the vector starts as the named charset and is replaced by
the trimmed contents of the custom charset file whenever the custom charset
path argument is non-empty. -/
def resolveCharacters (isAlphabetic : Char → Bool) (customProvided : Bool)
    (customContents : List Char) (cs : Charset) : List Char :=
  if customProvided then rustTrim customContents else get_characters isAlphabetic cs

/-- The Rust expression v as u32 on an f32 value v: truncation toward zero,
saturating at the bounds of u32 (negative values and NaN go to 0). The
fractional font metrics are modelled as rationals, where truncation of a
non-negative value is the floor. -/
def truncU32 (q : ℚ) : ℕ := min (⌊q⌋).toNat (2 ^ 32 - 1)

/-- Model of glyph_width (src/src/main.rs, lines 122 to 123): the scaled
horizontal advance plus the scaled side bearing of the glyph, still
fractional. The font metrics are external capabilities and appear as
parameters. -/
def glyph_width (adv sb : Char → ℚ) (g : Char) : ℚ := adv g + sb g

/-- Model of glyph_height (src/src/main.rs, line 100): scaled line height
minus scaled line gap, computed once before the loop, still fractional. -/
def glyph_height (height lineGap : ℚ) : ℚ := height - lineGap

/-- The per-glyph cell width exactly as claim C1 words it: the ceiling of
advance plus side bearing. Written from the claim, to be compared with the
truncation the source performs. -/
def cellWidthSpecCeil (adv sb : Char → ℚ) (g : Char) : ℕ := (⌈adv g + sb g⌉).toNat

/-- Outcome of one composition run: normal completion with the list of
visited cells (cursor position and character request index), or an abort of
the process at a cell whose clipped sampling region is empty, where
get_average_color divides by zero. -/
inductive RunOutcome where
  | ok : List (ℕ × ℕ × ℕ) → RunOutcome
  | panic : ℕ → ℕ → RunOutcome
deriving DecidableEq

/-- Model of the composition loop of main (src/src/main.rs, lines 106 to
140). The state is the cursor (x, y) and the index k of the next character
request; step k is the already truncated width of the k-th requested glyph
and cellH the truncated glyph height, fixed for the run. Each inner
iteration crops the source region at the cursor and averages its color;
when the clipped region is empty the division by zero inside
get_average_color aborts the run, modelled as RunOutcome.panic. The color
value never influences control flow, so the trace records only cells. fuel
bounds the number of executed iterations: none means the loop was still
running after fuel iterations. -/
def composeRun (W H : ℕ) (step : ℕ → ℕ) (cellH : ℕ) :
    ℕ → ℕ → ℕ → ℕ → Option RunOutcome
  | 0, _, _, _ => none
  | fuel + 1, x, y, k =>
    if y < H then
      if x < W then
        if clipW W x (step k) * clipH H y cellH = 0 then some (RunOutcome.panic x y)
        else
          match composeRun W H step cellH fuel (x + step k) y (k + 1) with
          | some (RunOutcome.ok tr) => some (RunOutcome.ok ((x, y, k) :: tr))
          | r => r
      else composeRun W H step cellH fuel 0 (y + cellH) k
    else some (RunOutcome.ok [])

/-- The relation between two consecutively visited cells: the character
request index advances by one, and either the cell lies in the same row with
the cursor advanced by exactly the truncated width of the glyph requested at
the earlier cell, or it starts the next row at x = 0, one cell height below. -/
def stepRel (step : ℕ → ℕ) (cellH : ℕ) (a b : ℕ × ℕ × ℕ) : Prop :=
  b.2.2 = a.2.2 + 1 ∧
    ((b.2.1 = a.2.1 ∧ b.1 = a.1 + step a.2.2) ∨ (b.1 = 0 ∧ b.2.1 = a.2.1 + cellH))

/-- Rational arithmetic does not reduce inside the kernel, so concrete metric
evaluations are established once by norm_num and reused where concrete runs
are computed. The metric 3/2 truncates to 1. -/
lemma step_three_halves :
    (fun _ : ℕ => truncU32 (glyph_width (fun _ => 3 / 2) (fun _ => 0) 'a')) = fun _ => 1 :=
  funext fun _ => by norm_num [truncU32, glyph_width]

/-- The metric 3/2 has ceiling 2. -/
lemma step_ceil_three_halves :
    (fun _ : ℕ => cellWidthSpecCeil (fun _ => 3 / 2) (fun _ => 0) 'a') = fun _ => 2 :=
  funext fun _ => by
    have h : (⌈(3 : ℚ) / 2⌉ : ℤ) = 2 := by
      rw [Int.ceil_eq_iff] <;> norm_num
    simp [cellWidthSpecCeil, h]

/-- The integer metric 2 truncates to 2. -/
lemma step_const_two :
    (fun _ : ℕ => truncU32 (glyph_width (fun _ => 2) (fun _ => 0) 'a')) = fun _ => 2 :=
  funext fun _ => by
    norm_num [truncU32, glyph_width]
    all_goals decide

/-- Line height 2 minus line gap 0 truncates to 2. -/
lemma cellH_const_two : truncU32 (glyph_height 2 0) = 2 := by
  norm_num [truncU32, glyph_height]
  all_goals decide

/-- A channel sum over a pixel list is bounded by 255 times the length when
every channel value is bounded by 255. -/
lemma sum_channel_le (ps : List Rgb) (f : Rgb → ℕ) (hf : ∀ p ∈ ps, f p ≤ 255) :
    (ps.map f).sum ≤ ps.length * 255 := by
  have h := List.sum_le_card_nsmul (ps.map f) 255 ?_
  · simpa [smul_eq_mul] using h
  · intro x hx
    obtain ⟨p, hp, rfl⟩ := List.mem_map.mp hx
    exact hf p hp

/-- The u8 cast after the division is the identity when every channel is a
u8 value: the average of values below 256 stays below 256. -/
lemma avg_mod_eq (ps : List Rgb) (f : Rgb → ℕ) (hl : 0 < ps.length)
    (hf : ∀ p ∈ ps, f p ≤ 255) :
    (ps.map f).sum / ps.length % 256 = (ps.map f).sum / ps.length := by
  apply Nat.mod_eq_of_lt
  rw [Nat.div_lt_iff_lt_mul hl]
  calc (ps.map f).sum ≤ ps.length * 255 := sum_channel_le ps f hf
    _ < 256 * ps.length := by
        rw [Nat.mul_comm]
        exact (Nat.mul_lt_mul_right hl).mpr (by norm_num)

/-- C3: for every non-empty pixel region whose channels are u8 values,
get_average_color returns in each channel exactly the truncating integer
division of the channel sum by the pixel count, and on a region whose
pixels all equal a color c it returns exactly c. -/
theorem average_color_floor_div (ps : List Rgb) (hne : ps ≠ [])
    (hb : ∀ p ∈ ps, p.r ≤ 255 ∧ p.g ≤ 255 ∧ p.b ≤ 255) :
    get_average_color ps =
      some ⟨(ps.map Rgb.r).sum / ps.length, (ps.map Rgb.g).sum / ps.length,
        (ps.map Rgb.b).sum / ps.length⟩ ∧
    ∀ c : Rgb, (∀ p ∈ ps, p = c) → get_average_color ps = some c := by
  have hl : 0 < ps.length := List.length_pos.mpr hne
  have hne0 : ¬ ps.length = 0 := by omega
  have h1 := avg_mod_eq ps Rgb.r hl fun p hp => (hb p hp).1
  have h2 := avg_mod_eq ps Rgb.g hl fun p hp => (hb p hp).2.1
  have h3 := avg_mod_eq ps Rgb.b hl fun p hp => (hb p hp).2.2
  constructor
  · simp only [get_average_color, if_neg hne0, h1, h2, h3]
  · intro c hc
    obtain ⟨p0, hp0⟩ := List.exists_mem_of_ne_nil ps hne
    have hcmem : c ∈ ps := hc p0 hp0 ▸ hp0
    have hsum : ∀ (f : Rgb → ℕ), (ps.map f).sum = ps.length * f c := by
      intro f
      have hrep : ps.map f = List.replicate ps.length (f c) := by
        refine List.eq_replicate_iff.mpr ⟨by simp, ?_⟩
        intro b hbm
        obtain ⟨p, hp, rfl⟩ := List.mem_map.mp hbm
        rw [hc p hp]
      rw [hrep, List.sum_replicate, smul_eq_mul]
    have e1 : (ps.map Rgb.r).sum / ps.length = c.r := by
      rw [hsum Rgb.r, Nat.mul_div_cancel_left _ hl]
    have e2 : (ps.map Rgb.g).sum / ps.length = c.g := by
      rw [hsum Rgb.g, Nat.mul_div_cancel_left _ hl]
    have e3 : (ps.map Rgb.b).sum / ps.length = c.b := by
      rw [hsum Rgb.b, Nat.mul_div_cancel_left _ hl]
    have m1 : c.r % 256 = c.r := Nat.mod_eq_of_lt (by have := (hb c hcmem).1; omega)
    have m2 : c.g % 256 = c.g := Nat.mod_eq_of_lt (by have := (hb c hcmem).2.1; omega)
    have m3 : c.b % 256 = c.b := Nat.mod_eq_of_lt (by have := (hb c hcmem).2.2; omega)
    simp only [get_average_color, if_neg hne0, e1, e2, e3, m1, m2, m3]

/-- C3 witness: the two-pixel region with colors (10,20,30) and (11,20,30)
averages to (10,20,30): the red channel 21/2 truncates to 10. -/
theorem average_color_floor_div_witness :
    get_average_color [⟨10, 20, 30⟩, ⟨11, 20, 30⟩] = some ⟨10, 20, 30⟩ := by
  have h := (average_color_floor_div [⟨10, 20, 30⟩, ⟨11, 20, 30⟩] (by decide) (by decide)).1
  exact h.trans (by decide)

/-- C8: sampling a region fails (the division by zero of get_average_color,
the run-aborting empty-region condition) exactly when the region clipped
against the buffer bounds has zero area; every region with at least one
in-bounds pixel succeeds. -/
theorem average_color_empty_region_iff (img : ℕ → ℕ → Rgb) (W H x y w h : ℕ) :
    get_average_color (regionPixels img W H x y w h) = none ↔
      clipW W x w * clipH H y h = 0 := by
  have hconst : ∀ n m : ℕ, ((List.range n).map fun _ : ℕ => m).sum = n * m := by
    intro n m
    induction n with
    | zero => simp
    | succ k ih => simp [List.range_succ, ih, Nat.succ_mul]
  have hlen : (regionPixels img W H x y w h).length = clipH H y h * clipW W x w := by
    simp only [regionPixels, List.length_flatMap]
    have hcomp : (List.length ∘ fun j : ℕ =>
        (List.range (clipW W x w)).map fun i => img (x + i) (y + j)) =
        fun _ : ℕ => clipW W x w := funext fun j => by simp
    rw [hcomp]
    exact hconst _ _
  have hnone : ∀ l : List Rgb, (get_average_color l = none ↔ l.length = 0) := by
    intro l
    by_cases h0 : l.length = 0 <;> simp [get_average_color, h0]
  rw [hnone, hlen, Nat.mul_comm]

/-- C4 counterexample: on the input string with hash and eight hex digits
the behaviour described by the claim (ignore everything beyond the first 6
characters) yields white, while the source parser hands the whole tail
FF00 to the blue parse, overflows u8 and fails. -/
theorem hex_trailing_counterexample :
    get_rgb_from_hex ['#', 'F', 'F', 'F', 'F', 'F', 'F', '0', '0'] = none ∧
    get_rgb_from_hex_claim ['#', 'F', 'F', 'F', 'F', 'F', 'F', '0', '0'] =
      some ⟨255, 255, 255⟩ := by
  constructor <;> decide

/-- C4 amended: every hash anywhere is removed; fewer than 6 remaining
characters fail; the first two characters are the red byte, the next two
the green byte, and the entire remainder is the blue parse, so characters
beyond the 6th participate in the blue byte instead of being ignored. The
three examples of the claim hold, and a remainder that still encodes a u8
value, such as 00FF, succeeds. -/
theorem hex_parse_amended :
    (∀ s, get_rgb_from_hex s = get_rgb_from_hex_amended s) ∧
    get_rgb_from_hex ['#', 'F', 'F', 'F', 'F', 'F', 'F'] = some ⟨255, 255, 255⟩ ∧
    get_rgb_from_hex ['0', '0', '0', '0', '0', '0'] = some ⟨0, 0, 0⟩ ∧
    get_rgb_from_hex ['#', 'f', 'f', 'f'] = none ∧
    get_rgb_from_hex ['F', 'F', 'F', 'F', '0', '0', 'F', 'F'] = some ⟨255, 255, 255⟩ :=
  ⟨fun _ => rfl, by decide, by decide, by decide, by decide⟩

/-- C9: the source parser removes every occurrence of the hash character
anywhere in the input before the length check and the digit parsing, so
a doubled leading hash and interior hashes both parse to white, and
parsing is invariant under removing all hashes first. -/
theorem hex_removes_all_hashes :
    get_rgb_from_hex ['#', '#', 'F', 'F', 'F', 'F', 'F', 'F'] = some ⟨255, 255, 255⟩ ∧
    get_rgb_from_hex ['F', 'F', '#', 'F', 'F', '#', 'F', 'F'] = some ⟨255, 255, 255⟩ ∧
    ∀ s, get_rgb_from_hex s = get_rgb_from_hex (s.filter fun c => c != '#') := by
  refine ⟨by decide, by decide, fun s => ?_⟩
  simp only [get_rgb_from_hex, List.filter_filter]
  simp [Bool.and_self]

/-- In random mode the loop selection is exactly the choose model. -/
lemma nextGlyph_random (l : List Char) (n r : ℕ) :
    nextGlyph [] n [] l r = chooseModel l r := rfl

/-- choose on a non-empty slice yields some element of the slice. -/
lemma chooseModel_mem (l : List Char) (r : ℕ) (hne : l ≠ []) :
    ∃ c, chooseModel l r = some c ∧ c ∈ l := by
  cases l with
  | nil => exact absurd rfl hne
  | cons a as =>
    have hmod : r % (a :: as).length < (a :: as).length :=
      Nat.mod_lt _ (by simp)
    refine ⟨(a :: as).get ⟨r % (a :: as).length, hmod⟩, ?_, List.get_mem _ _ _⟩
    simp [chooseModel, List.get?_eq_get hmod]

/-- C7: the named-charset construction maps every name of the enumerated
domain to exactly the characters of its specified Unicode range with its
specified filter, for every alphabetic predicate: the latin range filtered
to alphabetic code points, the playing cards range minus the four reserved
gap code points, and so on through the whole table. -/
theorem get_characters_matches_table (isAlphabetic : Char → Bool) (c : Charset) :
    get_characters isAlphabetic c = specCharacters isAlphabetic c := by
  cases c <;> first | rfl | decide

/-- C5 evidence: a custom charset file whose contents trim to nothing gives
an empty character vector at construction, with no failure there, and then
the first random glyph request inside the composition loop returns none,
the modelled panic of expect on an empty vector, instead of an EmptyCharset
construction error before the loop. -/
theorem empty_custom_charset_panics :
    resolveCharacters Char.isAlpha true [' ', '\n', '\t'] Charset.Latin = [] ∧
    ∀ r n, nextGlyph [] n []
      (resolveCharacters Char.isAlpha true [' ', '\n', '\t'] Charset.Latin) r = none := by
  have h : resolveCharacters Char.isAlpha true [' ', '\n', '\t'] Charset.Latin = [] := by
    decide
  exact ⟨h, fun r n => by rw [h]; rfl⟩

/-- C10: in random mode (empty text stream and empty literal character)
every produced glyph is a member of the active character list, which is the
trimmed custom file contents when a custom charset was provided and the
named charset otherwise, whenever that list is non-empty. -/
theorem random_glyph_mem_active (isAlphabetic : Char → Bool) (customProvided : Bool)
    (customContents : List Char) (cs : Charset) (n r : ℕ)
    (hne : resolveCharacters isAlphabetic customProvided customContents cs ≠ []) :
    ∃ c, nextGlyph [] n []
        (resolveCharacters isAlphabetic customProvided customContents cs) r = some c ∧
      c ∈ resolveCharacters isAlphabetic customProvided customContents cs := by
  rw [nextGlyph_random]
  exact chooseModel_mem _ r hne

/-- C10 witness: with no custom charset and the binary named charset, the
draw 3 produces a glyph of the two-character active set. -/
theorem random_glyph_mem_active_witness :
    ∃ c, nextGlyph [] 0 []
        (resolveCharacters Char.isAlpha false [] Charset.Binary) 3 = some c ∧
      c ∈ resolveCharacters Char.isAlpha false [] Charset.Binary :=
  random_glyph_mem_active Char.isAlpha false [] Charset.Binary 0 3 (by decide)

/-- C6: sanitization removes exactly the non-alphabetic characters keeping
case and order, and on the text Hello, World! the cyclic stream emits
HelloWorld repeatedly: request n yields character n mod 10, and request 10
restarts at H. The alphabetic predicate is pinned only on ASCII, where
char::is_alphabetic agrees with Char.isAlpha. -/
theorem sanatize_cycle_hello (isAlphabetic : Char → Bool)
    (hAscii : ∀ c : Char, c.toNat < 128 → isAlphabetic c = c.isAlpha) :
    sanatize_text isAlphabetic ['H', 'e', 'l', 'l', 'o', ',', ' ', 'W', 'o', 'r', 'l', 'd', '!'] =
      ['H', 'e', 'l', 'l', 'o', 'W', 'o', 'r', 'l', 'd'] ∧
    (∀ t, sanatize_text isAlphabetic t = t.filter isAlphabetic) ∧
    (∀ n, cycleNext (sanatize_text isAlphabetic
        ['H', 'e', 'l', 'l', 'o', ',', ' ', 'W', 'o', 'r', 'l', 'd', '!']) n =
      ['H', 'e', 'l', 'l', 'o', 'W', 'o', 'r', 'l', 'd'].get? (n % 10)) ∧
    cycleNext (sanatize_text isAlphabetic
        ['H', 'e', 'l', 'l', 'o', ',', ' ', 'W', 'o', 'r', 'l', 'd', '!']) 10 = some 'H' := by
  have hfilter : ∀ t, sanatize_text isAlphabetic t = t.filter isAlphabetic := by
    intro t
    simp [sanatize_text, rustReplaceEmpty, Bool.not_not]
  have hhello : sanatize_text isAlphabetic
      ['H', 'e', 'l', 'l', 'o', ',', ' ', 'W', 'o', 'r', 'l', 'd', '!'] =
      ['H', 'e', 'l', 'l', 'o', 'W', 'o', 'r', 'l', 'd'] := by
    rw [hfilter]
    rw [List.filter_congr fun c hc => hAscii c (by fin_cases hc <;> decide)]
    decide
  refine ⟨hhello, hfilter, fun n => ?_, by rw [hhello]; decide⟩
  rw [hhello]
  simp [cycleNext]

/-- C6 witness: with Char.isAlpha, which satisfies the ASCII pinning
trivially, the sanitized text is exactly HelloWorld. -/
theorem sanatize_cycle_hello_witness :
    sanatize_text Char.isAlpha ['H', 'e', 'l', 'l', 'o', ',', ' ', 'W', 'o', 'r', 'l', 'd', '!'] =
      ['H', 'e', 'l', 'l', 'o', 'W', 'o', 'r', 'l', 'd'] :=
  (sanatize_cycle_hello Char.isAlpha fun _ _ => rfl).1

/-- Structure of every normally completed trace: consecutive cells are
related by stepRel, a run over a zero-width raster visits no cell, and the
first visited cell carries the starting request index and sits either at the
starting cursor or at the start of the next row. -/
lemma composeRun_ok_chain (W H : ℕ) (step : ℕ → ℕ) (cellH : ℕ) :
    ∀ fuel x y k trace,
      composeRun W H step cellH fuel x y k = some (RunOutcome.ok trace) →
      List.Chain' (stepRel step cellH) trace ∧
      (W = 0 → trace = []) ∧
      ∀ hd, trace.head? = some hd →
        hd.2.2 = k ∧
          ((hd.1 = x ∧ hd.2.1 = y) ∨ (¬ x < W ∧ hd.1 = 0 ∧ hd.2.1 = y + cellH)) := by
  intro fuel
  induction fuel with
  | zero =>
    intro x y k trace h
    simp [composeRun] at h
  | succ fuel ih =>
    intro x y k trace h
    simp only [composeRun] at h
    by_cases hy : y < H
    · rw [if_pos hy] at h
      by_cases hx : x < W
      · rw [if_pos hx] at h
        by_cases hz : clipW W x (step k) * clipH H y cellH = 0
        · rw [if_pos hz] at h
          simp at h
        · rw [if_neg hz] at h
          cases hrec : composeRun W H step cellH fuel (x + step k) y (k + 1) with
          | none =>
            simp only [hrec] at h
            exact Option.noConfusion h
          | some r =>
            cases r with
            | panic a b =>
              simp only [hrec] at h
              simp at h
            | ok tr =>
              simp only [hrec] at h
              simp only [Option.some.injEq, RunOutcome.ok.injEq] at h
              subst h
              obtain ⟨ch, hW0, hhd⟩ := ih (x + step k) y (k + 1) tr hrec
              refine ⟨?_, fun h0 => absurd hx (by omega), ?_⟩
              · rw [List.chain'_cons']
                refine ⟨?_, ch⟩
                intro b hb
                obtain ⟨hk, hdisj⟩ := hhd b hb
                refine ⟨hk, ?_⟩
                rcases hdisj with ⟨h1, h2⟩ | ⟨_, h1, h2⟩
                · exact Or.inl ⟨h2, h1⟩
                · exact Or.inr ⟨h1, h2⟩
              · intro hd hhd'
                simp only [List.head?_cons, Option.some.injEq] at hhd'
                subst hhd'
                exact ⟨rfl, Or.inl ⟨rfl, rfl⟩⟩
      · rw [if_neg hx] at h
        obtain ⟨ch, hW0, hhd⟩ := ih 0 (y + cellH) k trace h
        refine ⟨ch, hW0, ?_⟩
        intro hd hhd'
        obtain ⟨hk, hdisj⟩ := hhd hd hhd'
        refine ⟨hk, ?_⟩
        rcases hdisj with ⟨h1, h2⟩ | ⟨h0, _, _⟩
        · exact Or.inr ⟨hx, h1, h2⟩
        · have hW : W = 0 := by omega
          rw [hW0 hW] at hhd'
          simp at hhd'
    · rw [if_neg hy] at h
      simp only [Option.some.injEq, RunOutcome.ok.injEq] at h
      subst h
      exact ⟨List.chain'_nil, fun _ => rfl, fun hd hhd' => by simp at hhd'⟩

/-- C1 amended: in every normally completed composition run, consecutive
cells advance by exactly the truncation toward zero (the f32 to u32 cast)
of advance plus side bearing of the requested glyph within a row, and by
the truncation of line height minus line gap from row to row; that vertical
step is the single value computed once before the loop, the same for every
row. The claimed ceiling rounding is refuted separately. -/
theorem grid_steps_truncated (adv sb : Char → ℚ) (height lineGap : ℚ) (gs : ℕ → Char)
    (W H fuel : ℕ) (trace : List (ℕ × ℕ × ℕ))
    (h : composeRun W H (fun j => truncU32 (glyph_width adv sb (gs j)))
        (truncU32 (glyph_height height lineGap)) fuel 0 0 0 =
      some (RunOutcome.ok trace)) :
    List.Chain' (stepRel (fun j => truncU32 (glyph_width adv sb (gs j)))
      (truncU32 (glyph_height height lineGap))) trace :=
  (composeRun_ok_chain W H _ _ fuel 0 0 0 trace h).1

/-- A concrete completed run used by the C1 witness: constant metrics 2 on a
4 by 4 raster visit the four cells of a 2 by 2 grid. -/
lemma composeRun_demo :
    composeRun 4 4 (fun _ : ℕ => truncU32 (glyph_width (fun _ => 2) (fun _ => 0) 'a'))
      (truncU32 (glyph_height 2 0)) 20 0 0 0 =
      some (RunOutcome.ok [(0, 0, 0), (2, 0, 1), (0, 2, 2), (2, 2, 3)]) := by
  rw [step_const_two, cellH_const_two]
  decide

/-- C1 witness: the chain property holds of the concrete trace of the
constant-metric run. -/
theorem grid_steps_truncated_witness :
    List.Chain' (stepRel (fun _ : ℕ => truncU32 (glyph_width (fun _ => 2) (fun _ => 0) 'a'))
      (truncU32 (glyph_height 2 0))) [(0, 0, 0), (2, 0, 1), (0, 2, 2), (2, 2, 3)] :=
  grid_steps_truncated (fun _ => 2) (fun _ => 0) 2 0 (fun _ => 'a') 4 4 20 _ composeRun_demo

/-- C1 counterexample: with advance 3/2 and side bearing 0, the loop steps
by the truncated width 1 and visits three cells of a 3 by 1 raster, while
the claimed ceiling width is 2 and would visit two cells; the loop does not
step by the ceiling. -/
theorem grid_steps_not_ceil :
    truncU32 (glyph_width (fun _ => 3 / 2) (fun _ => 0) 'a') = 1 ∧
    cellWidthSpecCeil (fun _ => 3 / 2) (fun _ => 0) 'a' = 2 ∧
    composeRun 3 1 (fun _ : ℕ => truncU32 (glyph_width (fun _ => 3 / 2) (fun _ => 0) 'a'))
        1 10 0 0 0 = some (RunOutcome.ok [(0, 0, 0), (1, 0, 1), (2, 0, 2)]) ∧
    composeRun 3 1 (fun _ : ℕ => cellWidthSpecCeil (fun _ => 3 / 2) (fun _ => 0) 'a')
        1 10 0 0 0 = some (RunOutcome.ok [(0, 0, 0), (2, 0, 1)]) := by
  refine ⟨congrFun step_three_halves 0, congrFun step_ceil_three_halves 0, ?_, ?_⟩
  · rw [step_three_halves]
    decide
  · rw [step_ceil_three_halves]
    decide

/-- Total termination of the loop model: from any state whose measure is
bounded, some outcome (normal or panic) is reached with finite fuel, for a
positive cell height. -/
lemma composeRun_total (W H : ℕ) (step : ℕ → ℕ) (cellH : ℕ) (hcH : 1 ≤ cellH) :
    ∀ n x y k, (H - y) * (W + 1) + (W - x) ≤ n →
      ∃ fuel r, composeRun W H step cellH fuel x y k = some r := by
  intro n
  induction n with
  | zero =>
    intro x y k hm
    have hy : ¬ y < H := by
      intro hy
      have h1 : (1 : ℕ) ≤ H - y := by omega
      have h2 : W + 1 ≤ (H - y) * (W + 1) := by
        calc W + 1 = 1 * (W + 1) := (one_mul _).symm
          _ ≤ (H - y) * (W + 1) := Nat.mul_le_mul_right _ h1
      omega
    exact ⟨1, RunOutcome.ok [], by simp [composeRun, hy]⟩
  | succ n ih =>
    intro x y k hm
    by_cases hy : y < H
    · by_cases hx : x < W
      · by_cases hz : clipW W x (step k) * clipH H y cellH = 0
        · exact ⟨1, RunOutcome.panic x y, by simp [composeRun, hy, hx, hz]⟩
        · have hs : 1 ≤ step k := by
            by_contra hs
            apply hz
            have h0 : step k = 0 := by omega
            simp [clipW, h0]
          have hkey : (H - y) * (W + 1) + (W - (x + step k)) ≤ n := by omega
          obtain ⟨fuel, r, hr⟩ := ih (x + step k) y (k + 1) hkey
          cases r with
          | ok tr =>
            exact ⟨fuel + 1, RunOutcome.ok ((x, y, k) :: tr), by
              simp [composeRun, hy, hx, hz, hr]⟩
          | panic a b =>
            exact ⟨fuel + 1, RunOutcome.panic a b, by
              simp [composeRun, hy, hx, hz, hr]⟩
      · have h1 : (1 : ℕ) ≤ H - y := by omega
        have h3 : (H - y - 1) * (W + 1) = (H - y) * (W + 1) - (W + 1) := by
          rw [Nat.sub_mul, one_mul]
        have h2 : (H - (y + cellH)) * (W + 1) ≤ (H - y - 1) * (W + 1) :=
          Nat.mul_le_mul_right _ (by omega)
        have h4 : W + 1 ≤ (H - y) * (W + 1) := by
          calc W + 1 = 1 * (W + 1) := (one_mul _).symm
            _ ≤ (H - y) * (W + 1) := Nat.mul_le_mul_right _ h1
        have hkey : (H - (y + cellH)) * (W + 1) + (W - 0) ≤ n := by omega
        obtain ⟨fuel, r, hr⟩ := ih 0 (y + cellH) k hkey
        exact ⟨fuel + 1, r, by simp [composeRun, hy, hx, hr]⟩
    · exact ⟨1, RunOutcome.ok [], by simp [composeRun, hy]⟩

/-- Normal completion of the loop model when every step is positive: no
cell panics and the run finishes with a trace. -/
lemma composeRun_ok_total (W H : ℕ) (step : ℕ → ℕ) (cellH : ℕ)
    (hstep : ∀ k, 1 ≤ step k) (hcH : 1 ≤ cellH) :
    ∀ n x y k, (H - y) * (W + 1) + (W - x) ≤ n →
      ∃ fuel tr, composeRun W H step cellH fuel x y k = some (RunOutcome.ok tr) := by
  intro n
  induction n with
  | zero =>
    intro x y k hm
    have hy : ¬ y < H := by
      intro hy
      have h1 : (1 : ℕ) ≤ H - y := by omega
      have h2 : W + 1 ≤ (H - y) * (W + 1) := by
        calc W + 1 = 1 * (W + 1) := (one_mul _).symm
          _ ≤ (H - y) * (W + 1) := Nat.mul_le_mul_right _ h1
      omega
    exact ⟨1, [], by simp [composeRun, hy]⟩
  | succ n ih =>
    intro x y k hm
    by_cases hy : y < H
    · by_cases hx : x < W
      · have hcw : 0 < clipW W x (step k) := by
          have hmx : min x W = x := Nat.min_eq_left (Nat.le_of_lt hx)
          rw [clipW, hmx]
          exact Nat.lt_min.mpr ⟨hstep k, by omega⟩
        have hch : 0 < clipH H y cellH := by
          have hmy : min y H = y := Nat.min_eq_left (Nat.le_of_lt hy)
          rw [clipH, hmy]
          exact Nat.lt_min.mpr ⟨hcH, by omega⟩
        have hz : ¬ clipW W x (step k) * clipH H y cellH = 0 := by
          have := Nat.mul_pos hcw hch
          omega
        have hs := hstep k
        have hkey : (H - y) * (W + 1) + (W - (x + step k)) ≤ n := by omega
        obtain ⟨fuel, tr, hr⟩ := ih (x + step k) y (k + 1) hkey
        exact ⟨fuel + 1, (x, y, k) :: tr, by simp [composeRun, hy, hx, hz, hr]⟩
      · have h1 : (1 : ℕ) ≤ H - y := by omega
        have h3 : (H - y - 1) * (W + 1) = (H - y) * (W + 1) - (W + 1) := by
          rw [Nat.sub_mul, one_mul]
        have h2 : (H - (y + cellH)) * (W + 1) ≤ (H - y - 1) * (W + 1) :=
          Nat.mul_le_mul_right _ (by omega)
        have h4 : W + 1 ≤ (H - y) * (W + 1) := by
          calc W + 1 = 1 * (W + 1) := (one_mul _).symm
            _ ≤ (H - y) * (W + 1) := Nat.mul_le_mul_right _ h1
        have hkey : (H - (y + cellH)) * (W + 1) + (W - 0) ≤ n := by omega
        obtain ⟨fuel, tr, hr⟩ := ih 0 (y + cellH) k hkey
        exact ⟨fuel + 1, tr, by simp [composeRun, hy, hx, hr]⟩
    · exact ⟨1, [], by simp [composeRun, hy]⟩

/-- C2: on a raster with positive dimensions the composition loop always
makes forward progress. For every metric assignment the run reaches some
outcome with finite fuel, never looping forever; when the truncated glyph
widths and the truncated cell height are all at least one pixel the cursor
strictly increases each iteration and the run completes normally over the
full raster; and a cell height or first glyph width that truncates to zero
aborts the run fatally at the very first cell (the empty-region division
by zero), instead of looping forever. -/
theorem compose_forward_progress (adv sb : Char → ℚ) (height lineGap : ℚ)
    (gs : ℕ → Char) (W H : ℕ) (hW : 1 ≤ W) (hH : 1 ≤ H) :
    (∃ fuel r, composeRun W H (fun j => truncU32 (glyph_width adv sb (gs j)))
        (truncU32 (glyph_height height lineGap)) fuel 0 0 0 = some r) ∧
    ((∀ k, 1 ≤ truncU32 (glyph_width adv sb (gs k))) →
      1 ≤ truncU32 (glyph_height height lineGap) →
      ∃ fuel tr, composeRun W H (fun j => truncU32 (glyph_width adv sb (gs j)))
        (truncU32 (glyph_height height lineGap)) fuel 0 0 0 =
          some (RunOutcome.ok tr)) ∧
    (truncU32 (glyph_height height lineGap) = 0 →
      composeRun W H (fun j => truncU32 (glyph_width adv sb (gs j)))
        (truncU32 (glyph_height height lineGap)) 1 0 0 0 =
          some (RunOutcome.panic 0 0)) ∧
    (truncU32 (glyph_width adv sb (gs 0)) = 0 →
      composeRun W H (fun j => truncU32 (glyph_width adv sb (gs j)))
        (truncU32 (glyph_height height lineGap)) 1 0 0 0 =
          some (RunOutcome.panic 0 0)) := by
  have h0H : (0 : ℕ) < H := by omega
  have h0W : (0 : ℕ) < W := by omega
  refine ⟨?_, ?_, ?_, ?_⟩
  · by_cases hcH : truncU32 (glyph_height height lineGap) = 0
    · exact ⟨1, RunOutcome.panic 0 0, by simp [composeRun, h0H, h0W, clipH, hcH]⟩
    · exact composeRun_total W H _ _ (by omega) _ 0 0 0 le_rfl
  · intro h1 h2
    exact composeRun_ok_total W H _ _ h1 h2 _ 0 0 0 le_rfl
  · intro hcH
    simp [composeRun, h0H, h0W, clipH, hcH]
  · intro hw0
    simp [composeRun, h0H, h0W, clipW, hw0]

/-- C2 witness: with integer metrics 2 and line height 2 on a 4 by 4
raster, the run reaches an outcome with finite fuel. -/
theorem compose_forward_progress_witness :
    ∃ fuel r, composeRun 4 4 (fun j => truncU32 (glyph_width (fun _ => 2) (fun _ => 0)
        ((fun _ : ℕ => 'a') j))) (truncU32 (glyph_height 2 0)) fuel 0 0 0 = some r :=
  (compose_forward_progress (fun _ => 2) (fun _ => 0) 2 0 (fun _ => 'a') 4 4
    (by decide) (by decide)).1

end Characterize
